import Mathlib

/-!
Verification of the streaming HTTP/1.1 request parsing code of
`src/server.cpp` (structs `http11_header_parser` and `http_request_parser`,
and the per-connection read loop of `main`).

Strings are modelled as `List Char` (the C++ code works on `std::string`
byte sequences; all inputs of interest are ASCII).  `std::string_view`
chunks are also `List Char`.  The `StringMap`
(`std::unordered_map<std::string, std::string>`) is modelled as an
association list whose observable behaviour (`find`, `insert_or_assign`)
matches the C++ container; iteration order is never observed by the code
under verification.

The two C++ structs are embedded under the CamelCase names
`Http11HeaderParser` and `HttpRequestParser` (the usual Lean convention for
type names); all field and member names follow the source otherwise
(the field `m_header_parser` is embedded as `m_headerParser`).
-/

/-- Characters of a string literal, used to write concrete byte sequences. -/
def strL (s : String) : List Char := s.data

/-- The CRLF line terminator `"\r\n"`. -/
def CRLF : List Char := ['\r', '\n']

/-- The 4-byte header terminator `"\r\n\r\n"`. -/
def TERM4 : List Char := ['\r', '\n', '\r', '\n']

/-- The header key/value delimiter `": "`. -/
def COLON_SP : List Char := [':', ' ']

/-- Embedding of `std::string::find(pattern)`: the index of the first
occurrence of `pat` as a contiguous substring of `s`, `none` for `npos`. -/
def findSub (pat : List Char) : List Char → Option Nat
  | [] => if pat.isPrefixOf ([] : List Char) then some 0 else none
  | c :: rest =>
    if pat.isPrefixOf (c :: rest) then some 0
    else (findSub pat rest).map (· + 1)

/-- The header map: association list standing for the C++
`std::unordered_map<std::string, std::string>`. -/
abbrev StringMap := List (List Char × List Char)

/-- Embedding of `unordered_map::find` followed by reading the value. -/
def mapFind : StringMap → List Char → Option (List Char)
  | [], _ => none
  | e :: rest, key => if e.1 = key then some e.2 else mapFind rest key

/-- Embedding of `unordered_map::insert_or_assign`: replace the value when
the key is present, insert otherwise. -/
def insert_or_assign (m : StringMap) (k v : List Char) : StringMap :=
  match m with
  | [] => [(k, v)]
  | e :: rest => if e.1 = k then (k, v) :: rest else e :: insert_or_assign rest k v

/-- The case-folding lambda of `_extract_headers`: `if ('A' <= c && c <= 'Z')
c += 'a' - 'A';` — ASCII uppercase letters are shifted to lowercase, every
other byte is untouched. -/
def ascii_tolower (c : Char) : Char :=
  if 'A' ≤ c ∧ c ≤ 'Z' then Char.ofNat (c.toNat + 32) else c

/-- `std::transform` of the key with `ascii_tolower`. -/
def lower_key (k : List Char) : List Char := k.map ascii_tolower

/-- An occurrence reported by `findSub` lies inside the string: the pattern
fits between index `n` and the end. -/
theorem findSub_some_le {pat s : List Char} {n : Nat}
    (h : findSub pat s = some n) : n + pat.length ≤ s.length := by
  induction s generalizing n with
  | nil =>
    simp only [findSub] at h
    split at h
    · rename_i hp
      cases h
      simpa [List.isPrefixOf_iff_prefix, List.prefix_nil] using hp
    · cases h
  | cons c rest ih =>
    simp only [findSub] at h
    split at h
    · rename_i hp
      cases h
      have := (List.isPrefixOf_iff_prefix.mp hp).length_le
      simpa using this
    · rcases Option.map_eq_some'.mp h with ⟨m, hm, rfl⟩
      have := ih hm
      simp only [List.length_cons]
      omega

/-- One line of the header block as the C++ loop body handles it: split at
the first `": "`; a line without that delimiter changes nothing, otherwise
the lowercased key is mapped to the text after the delimiter. -/
def process_header_line (m : StringMap) (line : List Char) : StringMap :=
  match findSub COLON_SP line with
  | none => m
  | some colon =>
    insert_or_assign m (lower_key (line.take colon)) (line.drop (colon + 2))

/-- Worker for the `while (pos != npos)` loop of
`http11_header_parser::_extract_headers`, expressed on the suffix of
`m_header` that starts at the current `pos` (the character right after a
CRLF): cut the line at the next CRLF, process it, continue after that CRLF;
when there is no further CRLF the rest of the string is the last line.
`fuel` only makes the recursion structural (so the kernel can evaluate it);
each iteration consumes at least two characters, so `s.length + 1` fuel is
never exhausted, and the fuel-out case is chosen equal to the no-CRLF case
so that `extract_lines_eq` below holds unconditionally. -/
def extract_lines_go : Nat → List Char → StringMap → StringMap
  | 0, s, m => process_header_line m s
  | fuel + 1, s, m =>
    match findSub CRLF s with
    | none => process_header_line m s
    | some n => extract_lines_go fuel (s.drop (n + 2)) (process_header_line m (s.take n))

/-- The header-line loop at full fuel. -/
def extract_lines (s : List Char) (m : StringMap) : StringMap :=
  extract_lines_go (s.length + 1) s m

/-- The fuel argument of `extract_lines_go` is irrelevant while it exceeds
the number of characters left. -/
theorem extract_lines_go_congr :
    ∀ (f₁ f₂ : Nat) (s : List Char) (m : StringMap),
      s.length < f₁ → s.length < f₂ →
      extract_lines_go f₁ s m = extract_lines_go f₂ s m := by
  intro f₁
  induction f₁ with
  | zero => intro f₂ s m h1; omega
  | succ a ih =>
    intro f₂ s m h1 h2
    cases f₂ with
    | zero => omega
    | succ b =>
      simp only [extract_lines_go]
      cases hf : findSub CRLF s with
      | none => rfl
      | some n =>
        have hle := findSub_some_le hf
        simp only [CRLF, List.length_cons, List.length_nil] at hle
        apply ih
        · simp only [List.length_drop]; omega
        · simp only [List.length_drop]; omega

/-- The loop equation of `extract_lines`, exactly the shape of the C++
loop body. -/
theorem extract_lines_eq (s : List Char) (m : StringMap) :
    extract_lines s m =
      match findSub CRLF s with
      | none => process_header_line m s
      | some n => extract_lines (s.drop (n + 2)) (process_header_line m (s.take n)) := by
  show extract_lines_go (s.length + 1) s m = _
  simp only [extract_lines_go]
  cases hf : findSub CRLF s with
  | none => rfl
  | some n =>
    have hle := findSub_some_le hf
    simp only [CRLF, List.length_cons, List.length_nil] at hle
    show extract_lines_go s.length (s.drop (n + 2)) _ = extract_lines (s.drop (n + 2)) _
    apply extract_lines_go_congr
    · simp only [List.length_drop]; omega
    · simp only [List.length_drop]; omega

/-- Embedding of `http11_header_parser::_extract_headers` (acting on the given
header block and key map instead of the member fields): skip everything up to
and including the first CRLF — the request line — then run the line loop.
Note that the C++ function never assigns `m_header_line`. -/
def _extract_headers (header : List Char) (m : StringMap) : StringMap :=
  match findSub CRLF header with
  | none => m
  | some p => extract_lines (header.drop (p + 2)) m

/-- Embedding of the C++ struct `http11_header_parser`, under the CamelCase
name Lean convention uses for types. -/
structure Http11HeaderParser where
  m_header : List Char
  m_header_line : List Char
  m_header_keys : StringMap
  m_body : List Char
  m_header_finished : Bool
deriving DecidableEq

/-- A freshly constructed `http11_header_parser`: all strings empty, the map
empty, `m_header_finished = false`. -/
def hp_init : Http11HeaderParser :=
  { m_header := [], m_header_line := [], m_header_keys := [], m_body := []
  , m_header_finished := false }

/-- Embedding of `http11_header_parser::push_chunk`: while headers are not
finished, append the chunk to `m_header` and look for `"\r\n\r\n"`; when it
is found, mark the headers finished, move everything after the terminator
to `m_body`, truncate `m_header` to the bytes before the terminator and run
`_extract_headers`.  Once finished the call does nothing. -/
def Http11HeaderParser.push_chunk (p : Http11HeaderParser) (chunk : List Char) :
    Http11HeaderParser :=
  if p.m_header_finished then p
  else
    let h := p.m_header ++ chunk
    match findSub TERM4 h with
    | none => { p with m_header := h }
    | some header_len =>
      { p with
        m_header_finished := true
      , m_body := h.drop (header_len + 4)
      , m_header := h.take header_len
      , m_header_keys := _extract_headers (h.take header_len) p.m_header_keys }

/-- Accessor `http11_header_parser::header_finished`. -/
def Http11HeaderParser.header_finished (p : Http11HeaderParser) : Bool :=
  p.m_header_finished

/-- Accessor `http11_header_parser::headline`. -/
def Http11HeaderParser.headline (p : Http11HeaderParser) : List Char :=
  p.m_header_line

/-- Accessor `http11_header_parser::headers`. -/
def Http11HeaderParser.headers (p : Http11HeaderParser) : StringMap :=
  p.m_header_keys

/-- Accessor `http11_header_parser::extra_body`. -/
def Http11HeaderParser.extra_body (p : Http11HeaderParser) : List Char :=
  p.m_body

/-- The `isspace` set `std::stoi` (via `strtol`) skips before parsing. -/
def is_stoi_space (c : Char) : Bool :=
  c = ' ' || c = '\t' || c = '\n' || c = '\x0B' || c = '\x0C' || c = '\r'

/-- Whether `std::stoi(s)` finds at least one digit (after optional
whitespace and an optional sign) — exactly the condition under which it does
NOT throw `std::invalid_argument`. -/
def stoi_would_parse (s : List Char) : Bool :=
  let t := s.dropWhile is_stoi_space
  let t2 := match t with
            | '+' :: r => r
            | '-' :: r => r
            | r => r
  match t2 with
  | c :: _ => c.isDigit
  | [] => false

/-- Embedding of the C++ struct `http_request_parser`, CamelCase like
`Http11HeaderParser`; the field `m_header_parser` is embedded as
`m_headerParser`. -/
structure HttpRequestParser where
  m_headerParser : Http11HeaderParser
  m_content_length : Nat
  m_body_finished : Bool
deriving DecidableEq

/-- A freshly constructed `http_request_parser`. -/
def rp_init : HttpRequestParser :=
  { m_headerParser := hp_init, m_content_length := 0, m_body_finished := false }

/-- Embedding of `http_request_parser::_extract_content_length`.  The C++
function returns `0` when the (case-folded) `content-length` key is absent,
and returns `0` when `std::stoi` throws `std::invalid_argument`; on every
other path it reaches the end of a `size_t`-returning function without a
`return` statement (the result of `std::stoi` is discarded), which is
undefined behaviour, or lets an uncaught `std::out_of_range` escape.  Those
two abnormal paths — taken exactly when the header is present and `stoi`
finds a digit — are modelled as `none`: the function yields no defined
value there. -/
def HttpRequestParser._extract_content_length (p : HttpRequestParser) : Option Nat :=
  match mapFind p.m_headerParser.m_header_keys (strL "content-length") with
  | none => some 0
  | some v => if stoi_would_parse v then none else some 0

/-- Embedding of `http_request_parser::push_chunk`.  The whole body is
guarded by `!m_header_parser.header_finished()`: once the headers are
finished the call is a no-op.  When the forwarded chunk finishes the
headers, the expected content length is extracted and, if the overshoot
body already reaches it, the request is marked finished and the body is
truncated to exactly that length.  `none` propagates the undefined
`_extract_content_length` paths. -/
def HttpRequestParser.push_chunk (p : HttpRequestParser) (chunk : List Char) :
    Option HttpRequestParser :=
  if p.m_headerParser.m_header_finished then some p
  else
    let hp := p.m_headerParser.push_chunk chunk
    if hp.m_header_finished then
      match HttpRequestParser._extract_content_length { p with m_headerParser := hp } with
      | none => none
      | some len =>
        if len ≤ hp.m_body.length then
          some { m_headerParser := { hp with m_body := hp.m_body.take len }
               , m_content_length := len
               , m_body_finished := true }
        else
          some { p with m_headerParser := hp, m_content_length := len }
    else
      some { p with m_headerParser := hp }

/-- Accessor `http_request_parser::request_finished`. -/
def HttpRequestParser.request_finished (p : HttpRequestParser) : Bool :=
  p.m_body_finished

/-- Accessor `http_request_parser::body`. -/
def HttpRequestParser.body (p : HttpRequestParser) : List Char :=
  p.m_headerParser.m_body

/-- Accessor `http_request_parser::headers`. -/
def HttpRequestParser.headers (p : HttpRequestParser) : StringMap :=
  p.m_headerParser.m_header_keys

/-- Embedding of `http_request_parser::method`: the request line up to its
first space, `"GET"` when it has no space. -/
def HttpRequestParser.method (p : HttpRequestParser) : List Char :=
  let hl := p.m_headerParser.m_header_line
  match findSub [' '] hl with
  | some space => hl.take space
  | none => strL "GET"

/-- Embedding of `http_request_parser::url`, byte for byte as written:
`space2 = headline.find(' ', space1)` searches FROM `space1` (so it finds
`space1` itself again), and `headline.substr(space1, space2)` takes `space2`
as a LENGTH. -/
def HttpRequestParser.url (p : HttpRequestParser) : List Char :=
  let hl := p.m_headerParser.m_header_line
  match findSub [' '] hl with
  | none => strL "GET"
  | some space1 =>
    match (findSub [' '] (hl.drop space1)).map (· + space1) with
    | none => strL "GET"
    | some space2 => (hl.drop space1).take space2

/-- Embedding of `check_error(msg, res)` for `ssize_t` results: `-1` prints
and throws (modelled `none`), every other value — including `0`, the
peer-closed read — is returned unchanged. -/
def check_error (res : Int) : Option Int :=
  if res = -1 then none else some res

/-- Outcome of running the per-connection read loop of `main` for a bounded
number of iterations. -/
inductive ConnOutcome where
  | looping : HttpRequestParser → List (List Char) → ConnOutcome
  | done : HttpRequestParser → ConnOutcome
  | undef : ConnOutcome
deriving DecidableEq

/-- Embedding of the `do { read; push_chunk } while (!request_finished())`
loop of the connection lambda in `main`, driven by the connection's incoming
data `input` (the successive successful reads).  When `input` is exhausted
the peer has closed: `read` returns `0`, `check_error` passes `0` through,
and the loop body pushes an empty chunk — the code has no branch that stops
on a zero-byte read.  `fuel` bounds the number of iterations watched;
`looping` means the loop is still running after that many iterations,
`done` that `request_finished()` became true and the loop exited, `undef`
that an undefined `push_chunk` path was reached. -/
def connection_loop : Nat → HttpRequestParser → List (List Char) → ConnOutcome
  | 0, p, input => ConnOutcome.looping p input
  | Nat.succ fuel, p, input =>
    let chunk := match input with | [] => [] | c :: _ => c
    let rest := match input with | [] => ([] : List (List Char)) | _ :: r => r
    match p.push_chunk chunk with
    | none => ConnOutcome.undef
    | some q =>
      if q.request_finished then ConnOutcome.done q
      else connection_loop fuel q rest

/-! ## Properties of substring search -/

/-- The occurrence `findSub` reports is real: the pattern is a prefix of the
suffix starting at the reported index. -/
theorem findSub_some_isPrefixOf {pat s : List Char} {n : Nat}
    (h : findSub pat s = some n) : pat.isPrefixOf (s.drop n) = true := by
  induction s generalizing n with
  | nil =>
    simp only [findSub] at h
    split at h
    · rename_i hp; cases h; simpa using hp
    · cases h
  | cons c rest ih =>
    simp only [findSub] at h
    split at h
    · rename_i hp; cases h; simpa using hp
    · rcases Option.map_eq_some'.mp h with ⟨m, hm, rfl⟩
      simpa using ih hm

/-- `findSub` reports the FIRST occurrence: no earlier index matches. -/
theorem findSub_some_min {pat s : List Char} {n : Nat}
    (h : findSub pat s = some n) :
    ∀ i, i < n → pat.isPrefixOf (s.drop i) = false := by
  induction s generalizing n with
  | nil =>
    simp only [findSub] at h
    split at h
    · cases h; omega
    · cases h
  | cons c rest ih =>
    simp only [findSub] at h
    split at h
    · cases h; omega
    · rename_i hp
      rcases Option.map_eq_some'.mp h with ⟨m, hm, rfl⟩
      intro i hi
      cases i with
      | zero => simpa using Bool.of_not_eq_true hp
      | succ j => simpa using ih hm j (by omega)

/-- `findSub` misses nothing: it returns `none` exactly when no suffix of
`s` starts with the pattern. -/
theorem findSub_none_iff {pat s : List Char} :
    findSub pat s = none ↔ ∀ i, pat.isPrefixOf (s.drop i) = false := by
  induction s with
  | nil =>
    simp only [findSub]
    constructor
    · intro h i
      split at h
      · cases h
      · rename_i hp; simpa using Bool.of_not_eq_true hp
    · intro h
      have := h 0
      simp only [List.drop_nil] at this
      simp [this]
  | cons c rest ih =>
    simp only [findSub]
    constructor
    · intro h i
      split at h
      · cases h
      · rename_i hp
        cases i with
        | zero => simpa using Bool.of_not_eq_true hp
        | succ j =>
          simp only [Option.map_eq_none'] at h
          simpa using ih.mp h j
    · intro h
      have h0 := h 0
      simp only [List.drop_zero] at h0
      simp only [h0, if_false, Bool.false_eq_true, Option.map_eq_none']
      exact ih.mpr (fun j => by simpa using h (j + 1))

/-- A prefix match survives appending on the right. -/
theorem isPrefixOf_append_right {pat a : List Char} (b : List Char)
    (h : pat.isPrefixOf a = true) : pat.isPrefixOf (a ++ b) = true :=
  List.isPrefixOf_iff_prefix.mpr
    ((List.isPrefixOf_iff_prefix.mp h).trans (List.prefix_append a b))

/-- A prefix match inside `t.take k` is a prefix match inside `t`. -/
theorem isPrefixOf_of_take {pat t : List Char} {k : Nat}
    (h : pat.isPrefixOf (t.take k) = true) : pat.isPrefixOf t = true :=
  List.isPrefixOf_iff_prefix.mpr
    ((List.isPrefixOf_iff_prefix.mp h).trans (List.take_prefix k t))

/-- If the pattern occurs nowhere in `a ++ b`, it occurs nowhere in `a`. -/
theorem findSub_none_of_append {pat a b : List Char}
    (h : findSub pat (a ++ b) = none) : findSub pat a = none := by
  rw [findSub_none_iff] at h ⊢
  intro i
  by_contra hcon
  have htrue : pat.isPrefixOf (a.drop i) = true := by
    cases hx : pat.isPrefixOf (a.drop i) with
    | true => rfl
    | false => exact absurd hx hcon
  have : pat.isPrefixOf ((a ++ b).drop i) = true := by
    rw [List.drop_append_eq_append_drop]
    exact isPrefixOf_append_right _ htrue
  rw [h i] at this
  cases this

/-- Before the first occurrence there is no occurrence at all: truncating at
the index `findSub` reports leaves a string free of the pattern (for a
non-empty pattern). -/
theorem findSub_take_of_first {pat s : List Char} {k : Nat}
    (hne : pat ≠ []) (h : findSub pat s = some k) :
    findSub pat (s.take k) = none := by
  rw [findSub_none_iff]
  intro i
  by_contra hcon
  have htrue : pat.isPrefixOf ((s.take k).drop i) = true := by
    cases hx : pat.isPrefixOf ((s.take k).drop i) with
    | true => rfl
    | false => exact absurd hx hcon
  by_cases hik : i < k
  · have hs : pat.isPrefixOf (s.drop i) = true := by
      rw [List.drop_take] at htrue
      exact isPrefixOf_of_take htrue
    rw [findSub_some_min h i hik] at hs
    cases hs
  · have hnil : (s.take k).drop i = [] := by
      apply List.drop_eq_nil_of_le
      have := List.length_take k s
      omega
    rw [hnil] at htrue
    have : pat = [] := by
      have := List.isPrefixOf_iff_prefix.mp htrue
      simpa [List.prefix_nil] using this
    exact hne this

/-! ## Reference definitions following the spec's words

These definitions are NOT translations of the source; they restate, in the
words of the spec, how the header block decomposes into lines and entries.
Claim C6 compares the source's `_extract_headers` against them. -/

/-- Worker for `split_lines`, fuel-structural like `extract_lines_go`. -/
def split_lines_go : Nat → List Char → List (List Char)
  | 0, s => [s]
  | fuel + 1, s =>
    match findSub CRLF s with
    | none => [s]
    | some n => s.take n :: split_lines_go fuel (s.drop (n + 2))

/-- Reference definition (spec): the lines of a block, split at each CRLF;
the text after the last CRLF is the last line. -/
def split_lines (s : List Char) : List (List Char) :=
  split_lines_go (s.length + 1) s

/-- Reference definition (spec): the entry one header line contributes —
split at the first `": "`, case-fold the key; a line without the delimiter
contributes nothing. -/
def line_entry (line : List Char) : Option (List Char × List Char) :=
  (findSub COLON_SP line).map
    (fun colon => (lower_key (line.take colon), line.drop (colon + 2)))

/-- Reference definition (spec): the entries of a header block, in wire
order — every line after the request line that carries the delimiter. -/
def spec_header_entries (block : List Char) : List (List Char × List Char) :=
  ((split_lines block).drop 1).filterMap line_entry

/-- Reference definition (spec): look a key up among entries, the LAST
occurrence winning. -/
def lookupLast : List (List Char × List Char) → List Char → Option (List Char)
  | [], _ => none
  | e :: rest, key =>
    match lookupLast rest key with
    | some v => some v
    | none => if e.1 = key then some e.2 else none

/-- First-some choice on options (plain helper for stating C6). -/
def orelse_opt (a b : Option (List Char)) : Option (List Char) :=
  match a with
  | some v => some v
  | none => b

/-! ## Concrete states used by witnesses -/

/-- A request parser whose headers are finished with `content-length: 5`
recorded and no body byte yet — the state the spec's `AwaitingBody` phase
describes. -/
def c2_state : HttpRequestParser :=
  { m_headerParser :=
    { m_header := strL "POST / HTTP/1.1\r\ncontent-length: 5"
    , m_header_line := []
    , m_header_keys := [(strL "content-length", strL "5")]
    , m_body := []
    , m_header_finished := true }
  , m_content_length := 5
  , m_body_finished := false }

/-- The truncated request of claim C9's scenario: a header block with no
terminator, after which the peer closes. -/
def c9_chunk : List Char := strL "GET / HTTP/1.1\r\n"

/-- The parser state after the connection of claim C9's scenario delivered
its only chunk. -/
def c9_p1 : HttpRequestParser :=
  { m_headerParser := { hp_init with m_header := c9_chunk }
  , m_content_length := 0
  , m_body_finished := false }

/-! ## Lemmas about the header-line loop and the reference decomposition -/

/-- The fuel argument of `split_lines_go` is irrelevant while it exceeds the
number of characters left. -/
theorem split_lines_go_congr :
    ∀ (f₁ f₂ : Nat) (s : List Char),
      s.length < f₁ → s.length < f₂ →
      split_lines_go f₁ s = split_lines_go f₂ s := by
  intro f₁
  induction f₁ with
  | zero => intro f₂ s h1; omega
  | succ a ih =>
    intro f₂ s h1 h2
    cases f₂ with
    | zero => omega
    | succ b =>
      simp only [split_lines_go]
      cases hf : findSub CRLF s with
      | none => rfl
      | some n =>
        have hle := findSub_some_le hf
        simp only [CRLF, List.length_cons, List.length_nil] at hle
        have hA : (s.drop (n + 2)).length < a := by
          simp only [List.length_drop]; omega
        have hB : (s.drop (n + 2)).length < b := by
          simp only [List.length_drop]; omega
        show s.take n :: split_lines_go a (s.drop (n + 2))
            = s.take n :: split_lines_go b (s.drop (n + 2))
        exact congrArg (fun t => s.take n :: t) (ih b _ hA hB)

/-- The recursion equation of `split_lines`. -/
theorem split_lines_eq (s : List Char) :
    split_lines s =
      match findSub CRLF s with
      | none => [s]
      | some n => s.take n :: split_lines (s.drop (n + 2)) := by
  show split_lines_go (s.length + 1) s = _
  simp only [split_lines_go]
  cases hf : findSub CRLF s with
  | none => rfl
  | some n =>
    have hle := findSub_some_le hf
    simp only [CRLF, List.length_cons, List.length_nil] at hle
    have hA : (s.drop (n + 2)).length < s.length := by
      simp only [List.length_drop]; omega
    show s.take n :: split_lines_go s.length (s.drop (n + 2))
        = s.take n :: split_lines (s.drop (n + 2))
    exact congrArg (fun t => s.take n :: t)
      (split_lines_go_congr s.length ((s.drop (n + 2)).length + 1) _ hA (Nat.lt_succ_self _))

/-- Lookup after `insert_or_assign`: the inserted key now maps to the new
value, every other key is unchanged. -/
theorem mapFind_insert_or_assign (m : StringMap) (k v key : List Char) :
    mapFind (insert_or_assign m k v) key
      = if k = key then some v else mapFind m key := by
  induction m with
  | nil => simp [insert_or_assign, mapFind]
  | cons e rest ih =>
    by_cases he : e.1 = k
    · subst he
      simp only [insert_or_assign, if_pos rfl, mapFind]
      by_cases hk : e.1 = key <;> simp [hk]
    · simp only [insert_or_assign, if_neg he, mapFind, ih]
      by_cases hk : e.1 = key
      · have hne : ¬ (k = key) := fun hkk => he (by rw [hk, hkk])
        simp [hk, hne]
      · simp [hk]

/-- `orelse_opt` with an empty fallback. -/
theorem orelse_opt_none_right (a : Option (List Char)) :
    orelse_opt a none = a := by
  cases a <;> rfl

/-- `orelse_opt` is associative. -/
theorem orelse_opt_assoc (a b c : Option (List Char)) :
    orelse_opt (orelse_opt a b) c = orelse_opt a (orelse_opt b c) := by
  cases a <;> cases b <;> rfl

/-- `lookupLast` on a cons, written with `orelse_opt`: the tail — the later
lines — wins over the head entry. -/
theorem lookupLast_cons (e : List Char × List Char)
    (rest : List (List Char × List Char)) (key : List Char) :
    lookupLast (e :: rest) key
      = orelse_opt (lookupLast rest key) (if e.1 = key then some e.2 else none) := by
  simp only [lookupLast, orelse_opt]

/-- Bounded-length core of the refinement between the C++ line loop and the
spec's per-line description: looking a key up in the map the loop builds
yields the last matching line's value, falling back to the incoming map. -/
theorem extract_lines_lookup_aux :
    ∀ (N : Nat) (s : List Char), s.length ≤ N → ∀ (m : StringMap) (key : List Char),
      mapFind (extract_lines s m) key
        = orelse_opt (lookupLast ((split_lines s).filterMap line_entry) key)
            (mapFind m key) := by
  intro N
  induction N with
  | zero =>
    intro s hs m key
    have hnil : s = [] := List.length_eq_zero.mp (by omega)
    subst hnil
    have h1 : findSub CRLF ([] : List Char) = none := by decide
    have h2 : findSub COLON_SP ([] : List Char) = none := by decide
    rw [extract_lines_eq, split_lines_eq]
    simp only [h1]
    simp [process_header_line, h2, line_entry, lookupLast, orelse_opt]
  | succ N ih =>
    intro s hs m key
    rw [extract_lines_eq, split_lines_eq]
    cases hf : findSub CRLF s with
    | none =>
      simp only [List.filterMap_cons, List.filterMap_nil]
      cases hc : findSub COLON_SP s with
      | none =>
        simp [process_header_line, hc, line_entry, lookupLast, orelse_opt]
      | some colon =>
        simp only [process_header_line, hc, line_entry, Option.map_some',
          lookupLast, mapFind_insert_or_assign]
        by_cases hk : lower_key (s.take colon) = key
        · simp [hk, orelse_opt]
        · simp [hk, orelse_opt]
    | some n =>
      have hle := findSub_some_le hf
      simp only [CRLF, List.length_cons, List.length_nil] at hle
      show mapFind (extract_lines (s.drop (n + 2)) (process_header_line m (s.take n))) key = _
      rw [ih (s.drop (n + 2)) (by simp only [List.length_drop]; omega)
        (process_header_line m (s.take n)) key]
      simp only [List.filterMap_cons]
      cases he : line_entry (s.take n) with
      | none =>
        have hcn : findSub COLON_SP (s.take n) = none := by
          simpa only [line_entry, Option.map_eq_none'] using he
        simp [process_header_line, hcn]
      | some e =>
        rcases Option.map_eq_some'.mp he with ⟨colon, hcolon, hekv⟩
        rw [lookupLast_cons, orelse_opt_assoc]
        have hproc : process_header_line m (s.take n)
            = insert_or_assign m (lower_key ((s.take n).take colon))
                ((s.take n).drop (colon + 2)) := by
          simp [process_header_line, hcolon]
        rw [hproc]
        have hmf : mapFind (insert_or_assign m (lower_key ((s.take n).take colon))
              ((s.take n).drop (colon + 2))) key
            = orelse_opt (if e.1 = key then some e.2 else none) (mapFind m key) := by
          rw [mapFind_insert_or_assign, ← hekv]
          by_cases hk : lower_key ((s.take n).take colon) = key
          · simp [hk, orelse_opt]
          · simp [hk, orelse_opt]
        rw [hmf]

/-- The refinement at full generality. -/
theorem extract_lines_lookup (s : List Char) (m : StringMap) (key : List Char) :
    mapFind (extract_lines s m) key
      = orelse_opt (lookupLast ((split_lines s).filterMap line_entry) key)
          (mapFind m key) :=
  extract_lines_lookup_aux s.length s (Nat.le_refl _) m key

/-! ## Lemmas about pushing chunk sequences -/

/-- While no terminator has appeared in the accumulated bytes, pushing a
sequence of chunks only grows the raw accumulator: the final state is the
initial one with the concatenation appended. -/
theorem hp_run_no_term :
    ∀ (chunks : List (List Char)) (p : Http11HeaderParser),
      p.m_header_finished = false →
      findSub TERM4 (p.m_header ++ chunks.flatten) = none →
      chunks.foldl Http11HeaderParser.push_chunk p
        = { p with m_header := p.m_header ++ chunks.flatten } := by
  intro chunks
  induction chunks with
  | nil =>
    intro p h1 h2
    simp only [List.foldl_nil, List.flatten_nil, List.append_nil]
  | cons c rest ih =>
    intro p h1 h2
    have hassoc : p.m_header ++ (c :: rest).flatten
        = (p.m_header ++ c) ++ rest.flatten := by
      simp [List.flatten_cons, List.append_assoc]
    have hnone : findSub TERM4 (p.m_header ++ c) = none := by
      rw [hassoc] at h2
      exact findSub_none_of_append h2
    have hpush : p.push_chunk c = { p with m_header := p.m_header ++ c } := by
      simp [Http11HeaderParser.push_chunk, h1, hnone]
    rw [List.foldl_cons, hpush]
    have hstep := ih { p with m_header := p.m_header ++ c } h1
      (by simpa using hassoc ▸ h2)
    rw [hstep]
    simp [List.flatten_cons, List.append_assoc]

/-- Pushing chunks preserves the invariant "while headers are unfinished,
the header map, the request line and the body are empty". -/
theorem hp_run_preserves_empty :
    ∀ (chunks : List (List Char)) (p : Http11HeaderParser),
      (p.m_header_finished = false →
        p.m_header_keys = [] ∧ p.m_header_line = [] ∧ p.m_body = []) →
      ((chunks.foldl Http11HeaderParser.push_chunk p).m_header_finished = false →
        (chunks.foldl Http11HeaderParser.push_chunk p).m_header_keys = [] ∧
        (chunks.foldl Http11HeaderParser.push_chunk p).m_header_line = [] ∧
        (chunks.foldl Http11HeaderParser.push_chunk p).m_body = []) := by
  intro chunks
  induction chunks with
  | nil => intro p hp; simpa using hp
  | cons c rest ih =>
    intro p hp
    rw [List.foldl_cons]
    apply ih
    intro hfin
    cases hb : p.m_header_finished with
    | true =>
      have : (p.push_chunk c).m_header_finished = true := by
        simp [Http11HeaderParser.push_chunk, hb]
      rw [this] at hfin
      cases hfin
    | false =>
      cases hf : findSub TERM4 (p.m_header ++ c) with
      | none =>
        have hpush : p.push_chunk c = { p with m_header := p.m_header ++ c } := by
          simp [Http11HeaderParser.push_chunk, hb, hf]
        rw [hpush]
        simpa using hp hb
      | some k =>
        have : (p.push_chunk c).m_header_finished = true := by
          simp [Http11HeaderParser.push_chunk, hb, hf]
        rw [this] at hfin
        cases hfin

/-- Once the peer of claim C9's scenario has closed, the read loop pushes
empty chunks into the unchanged state `c9_p1` forever. -/
theorem c9_loop_fix : ∀ n, connection_loop n c9_p1 [] = ConnOutcome.looping c9_p1 [] := by
  intro n
  induction n with
  | zero => rfl
  | succ k ih =>
    have h1 : c9_p1.push_chunk [] = some c9_p1 := by decide
    have h2 : c9_p1.request_finished = false := by decide
    simp only [connection_loop, h1, h2]
    simpa using ih

/-! ## The claims -/

/-- Claim C1 (code bug): the claim says the expected body length equals the
`content-length` value when that header is present and valid; on exactly
that path the C++ `_extract_content_length` discards the `std::stoi` result
and reaches the end of the function without a `return` (undefined
behaviour), so the code yields no defined length there — shown here on a
header map carrying `content-length: 5` and on a whole single-chunk request
carrying that header. -/
theorem C1_extract_content_length_undefined :
    HttpRequestParser._extract_content_length
      { rp_init with m_headerParser :=
        { hp_init with m_header_keys := [(strL "content-length", strL "5")] } } = none
    ∧ rp_init.push_chunk (strL "POST / HTTP/1.1\r\ncontent-length: 5\r\n\r\nhello")
        = none :=
  ⟨by decide, by decide⟩

/-- Claim C2 (code bug): the claim says `push_chunk` keeps appending body
bytes after the headers are finished until the expected length is reached;
in the code the whole body of `http_request_parser::push_chunk` is guarded
by `!m_header_parser.header_finished()`, so from EVERY state with finished
headers — in particular one still awaiting body bytes — the call returns
with the state unchanged: nothing is appended and completion is never
re-checked. -/
theorem C2_push_chunk_noop_after_headers (p : HttpRequestParser) (c : List Char)
    (h : p.m_headerParser.m_header_finished = true) :
    p.push_chunk c = some p := by
  simp [HttpRequestParser.push_chunk, h]

/-- Witness for C2: the no-op at the concrete state with finished headers,
`content-length: 5` recorded and an empty body, pushing `"hello"`. -/
theorem C2_push_chunk_noop_after_headers_witness :
    c2_state.m_headerParser.m_header_finished = true ∧
    c2_state.push_chunk (strL "hello") = some c2_state :=
  ⟨rfl, C2_push_chunk_noop_after_headers c2_state (strL "hello") rfl⟩

/-- Claim C3 (code bug): the claim asks for chunking-independence of the
final parser state on every well-formed request.  For any well-formed
request declaring a positive `content-length`, the push that completes the
headers runs into the missing `return` of `_extract_content_length`
(undefined — first conjunct), so no well-defined final state exists to
compare; moreover the header parser drops the chunks that arrive after the
headers finish, so the accumulated body depends on the chunk boundaries
(second and third conjunct: `"he"` against `"hello"`). -/
theorem C3_chunking_dependence :
    rp_init.push_chunk (strL "POST / HTTP/1.1\r\ncontent-length: 5\r\n\r\n") = none
    ∧ ([strL "GET / HTTP/1.1\r\n\r\nhe", strL "llo"].foldl
        Http11HeaderParser.push_chunk hp_init).m_body = strL "he"
    ∧ (hp_init.push_chunk (strL "GET / HTTP/1.1\r\n\r\nhello")).m_body = strL "hello" :=
  ⟨by decide, by decide, by decide⟩

/-- Claim C4 (code bug): the claim says `method()` returns the request-line
text before its first space ("POST" for a POST request).  The C++
`_extract_headers` never assigns `m_header_line`, so after a complete POST
request the request line is still empty and `method()` takes its
no-space default `"GET"`. -/
theorem C4_method_always_get :
    (rp_init.push_chunk (strL "POST /abc HTTP/1.1\r\nHost: x\r\n\r\n")).map
      (fun p => (p.method, p.m_headerParser.m_header_line))
      = some (strL "GET", []) := by
  decide

/-- Claim C5 (confirmed): when the appended chunk makes the terminator
appear — first occurrence at offset `k` of the accumulated bytes — the call
marks the headers finished, the body becomes exactly the bytes after the
terminator, the accumulator is truncated to exactly the bytes before it,
and in particular the accumulator no longer contains the terminator. -/
theorem C5_terminator_completes_headers (p : Http11HeaderParser) (c : List Char)
    (k : Nat) (hfin : p.m_header_finished = false)
    (hk : findSub TERM4 (p.m_header ++ c) = some k) :
    (p.push_chunk c).m_header_finished = true ∧
    (p.push_chunk c).m_header = (p.m_header ++ c).take k ∧
    (p.push_chunk c).m_body = (p.m_header ++ c).drop (k + 4) ∧
    findSub TERM4 (p.push_chunk c).m_header = none := by
  have hpush : p.push_chunk c =
      { p with
        m_header_finished := true,
        m_body := (p.m_header ++ c).drop (k + 4),
        m_header := (p.m_header ++ c).take k,
        m_header_keys := _extract_headers ((p.m_header ++ c).take k) p.m_header_keys } := by
    simp [Http11HeaderParser.push_chunk, hfin, hk]
  rw [hpush]
  exact ⟨rfl, rfl, rfl, findSub_take_of_first (by decide) hk⟩

/-- Witness for C5: a fresh parser receiving `"A: b\r\n\r\nxyz"`, whose
terminator first occurs at offset 4. -/
theorem C5_terminator_completes_headers_witness :
    hp_init.m_header_finished = false ∧
    findSub TERM4 (hp_init.m_header ++ strL "A: b\r\n\r\nxyz") = some 4 ∧
    ((hp_init.push_chunk (strL "A: b\r\n\r\nxyz")).m_header_finished = true ∧
     (hp_init.push_chunk (strL "A: b\r\n\r\nxyz")).m_header
        = (hp_init.m_header ++ strL "A: b\r\n\r\nxyz").take 4 ∧
     (hp_init.push_chunk (strL "A: b\r\n\r\nxyz")).m_body
        = (hp_init.m_header ++ strL "A: b\r\n\r\nxyz").drop (4 + 4) ∧
     findSub TERM4 (hp_init.push_chunk (strL "A: b\r\n\r\nxyz")).m_header = none) :=
  ⟨rfl, by decide,
   C5_terminator_completes_headers hp_init (strL "A: b\r\n\r\nxyz") 4 rfl (by decide)⟩

/-- Claim C6 (confirmed): looking any key up in the map `_extract_headers`
builds from a header block gives exactly what the spec's per-line reading
prescribes — among the lines after the request line, those carrying `": "`
contribute (case-folded key before the first delimiter, value after it),
lines without the delimiter contribute nothing, and the LAST occurrence of
a key wins; and ASCII case folding sends `Content-Length` and
`CONTENT-LENGTH` to the same lookup key `content-length`. -/
theorem C6_header_map_refines_line_spec :
    (∀ (block key : List Char),
      mapFind (_extract_headers block []) key
        = lookupLast (spec_header_entries block) key)
    ∧ lower_key (strL "Content-Length") = strL "content-length"
    ∧ lower_key (strL "CONTENT-LENGTH") = strL "content-length" := by
  refine ⟨?_, by decide, by decide⟩
  intro block key
  unfold _extract_headers spec_header_entries
  cases hf : findSub CRLF block with
  | none =>
    rw [split_lines_eq]
    simp [hf, mapFind, lookupLast]
  | some p =>
    have hsl : split_lines block = block.take p :: split_lines (block.drop (p + 2)) := by
      rw [split_lines_eq, hf]
    rw [extract_lines_lookup]
    simp only [mapFind]
    rw [orelse_opt_none_right, hsl]
    simp only [List.drop_succ_cons, List.drop_zero]

/-- Witness for C6: the `Host: x` header of the spec's end-to-end scenario
resolves through both sides to `"x"`. -/
theorem C6_header_map_refines_line_spec_witness :
    mapFind (_extract_headers (strL "GET / HTTP/1.1\r\nHost: x") []) (strL "host")
      = some (strL "x") :=
  (C6_header_map_refines_line_spec.1 (strL "GET / HTTP/1.1\r\nHost: x")
    (strL "host")).trans (by decide)

/-- Claim C7 (code bug): the claim says `url()` returns the path token of
the request line.  Because the request line is never populated (see C4),
`url()` returns its fallback `"GET"` even for a complete
`GET /index.html HTTP/1.1` request — and its very extraction
(`find(' ', space1)` re-finding the first space, `substr(space1, space2)`
reading an index as a length) could not isolate the path either. -/
theorem C7_url_not_path_token :
    (rp_init.push_chunk (strL "GET /index.html HTTP/1.1\r\n\r\n")).map
      HttpRequestParser.url = some (strL "GET") := by
  decide

/-- Claim C8 (confirmed): as long as the concatenation of all pushed chunks
never contains the terminator, `m_header_finished` stays `false` after
every push — here stated after each prefix of an arbitrary chunk
sequence. -/
theorem C8_without_terminator_never_finished (chunks : List (List Char))
    (h : findSub TERM4 chunks.flatten = none) :
    ∀ i, ((chunks.take i).foldl Http11HeaderParser.push_chunk hp_init).m_header_finished
      = false := by
  intro i
  have hsplit : chunks.flatten = (chunks.take i).flatten ++ (chunks.drop i).flatten := by
    rw [← List.flatten_append, List.take_append_drop]
  rw [hsplit] at h
  have hpre := findSub_none_of_append h
  have hrun := hp_run_no_term (chunks.take i) hp_init rfl (by simpa [hp_init] using hpre)
  rw [hrun]
  rfl

/-- Witness for C8: two chunks of a request line with no terminator, after
the first push. -/
theorem C8_without_terminator_never_finished_witness :
    findSub TERM4 ([strL "GET ", strL "/ HTTP"] : List (List Char)).flatten = none ∧
    ((([strL "GET ", strL "/ HTTP"] : List (List Char)).take 1).foldl
        Http11HeaderParser.push_chunk hp_init).m_header_finished = false :=
  ⟨by decide, C8_without_terminator_never_finished [strL "GET ", strL "/ HTTP"] (by decide) 1⟩

/-- Claim C9 (code bug): the claim says a 0-byte read (peer closed) on an
incomplete request is a terminal truncated-request condition.  In the code
`check_error` passes `0` through as success (first conjunct), and the
connection loop keeps running: with the truncated request
`"GET / HTTP/1.1\r\n"` followed by end-of-stream, after any number of
iterations the loop is still `looping` — it neither stops reading nor
reports anything. -/
theorem C9_connection_loop_spins_on_eof :
    check_error 0 = some 0 ∧
    ∀ n, ∃ q rest, connection_loop n rp_init [c9_chunk]
      = ConnOutcome.looping q rest := by
  refine ⟨rfl, ?_⟩
  intro n
  cases n with
  | zero => exact ⟨rp_init, [c9_chunk], rfl⟩
  | succ k =>
    refine ⟨c9_p1, [], ?_⟩
    have h1 : rp_init.push_chunk c9_chunk = some c9_p1 := by decide
    have h2 : c9_p1.request_finished = false := by decide
    simp only [connection_loop, h1, h2]
    simpa using c9_loop_fix k

/-- Claim C10 (confirmed): while `header_finished` is false the header map,
the request line and the body of a parser reached from a fresh one are all
empty (first conjunct — every pre-terminator push touches only the raw
accumulator), and once finished every further push is the identity, so the
derived fields are written at most once, at the transition (second
conjunct). -/
theorem C10_unfinished_state_empty :
    (∀ chunks : List (List Char),
      (chunks.foldl Http11HeaderParser.push_chunk hp_init).m_header_finished = false →
        (chunks.foldl Http11HeaderParser.push_chunk hp_init).m_header_keys = [] ∧
        (chunks.foldl Http11HeaderParser.push_chunk hp_init).m_header_line = [] ∧
        (chunks.foldl Http11HeaderParser.push_chunk hp_init).m_body = [])
    ∧ (∀ (p : Http11HeaderParser) (c : List Char),
        p.m_header_finished = true → p.push_chunk c = p) := by
  constructor
  · intro chunks
    exact hp_run_preserves_empty chunks hp_init (fun _ => ⟨rfl, rfl, rfl⟩)
  · intro p c h
    simp [Http11HeaderParser.push_chunk, h]

/-- Witness for C10: a fresh parser fed a partial request line still has an
empty header map, and a finished parser is untouched by a further push. -/
theorem C10_unfinished_state_empty_witness :
    ((([strL "GET / HT"] : List (List Char)).foldl
        Http11HeaderParser.push_chunk hp_init).m_header_keys = []) ∧
    c2_state.m_headerParser.push_chunk (strL "x") = c2_state.m_headerParser :=
  ⟨(C10_unfinished_state_empty.1 [strL "GET / HT"] (by decide)).1,
   C10_unfinished_state_empty.2 c2_state.m_headerParser (strL "x") rfl⟩
